import Mathlib

/-!
Verification of the nearest-neighbour analysis pipeline of ipymd.

Shallow embedding of `src/ipymd/atom_analysis/nearest_neighbour.py` and
`src/ipymd/atom_manipulation.py`.  Floating-point coordinates and distances
are modelled as rationals; the external `scipy.spatial.cKDTree` queries are
modelled from their contract in the specification (sentinel-padded k-nearest
within a cutoff, all-pairs within a radius); Python dicts and sets are
modelled as association lists and duplicate-free lists.  Square roots are
kept squared (monotone reparametrisation): the field called `length` in the
source bond table is represented by the squared length here.
-/

namespace Ipymd

/-- A 3-D point with rational coordinates (floats are modelled as ℚ). -/
abbrev Pt : Type := ℚ × ℚ × ℚ

/-- Squared Euclidean distance between two points. -/
def dist2 (p q : Pt) : ℚ :=
  (p.1 - q.1) ^ 2 + (p.2.1 - q.2.1) ^ 2 + (p.2.2 - q.2.2) ^ 2

/-- Modelled from the spec: `scipy.spatial.cKDTree.query_pairs(r)` (an external
library call): all index pairs `i < j` of points at distance at most `r`
(squared distance at most `r ^ 2`), in lexicographic order. -/
def queryPairs (pts : List Pt) (r : ℚ) : List (ℕ × ℕ) :=
  pts.enum.flatMap (fun p =>
    pts.enum.filterMap (fun q =>
      if p.1 < q.1 ∧ dist2 p.2 q.2 ≤ r ^ 2 then some (p.1, q.1) else none))

/-- One row of the atoms table: position and type label (the colour and
display columns play no role in any claim and are omitted). -/
abbrev AtomRow : Type := Pt × String

/-- Default row used for (always in-range) list indexing. -/
def dummyRow : AtomRow := (((0 : ℚ), (0 : ℚ), (0 : ℚ)), "")

/-- `queryPairs` carrying each index's full table row, so that the
`atoms_df.iloc[i]` / `r_array[i]` lookups of `guess_bonds` are the pair's
components. -/
def queryPairsE (rows : List AtomRow) (r : ℚ) : List ((ℕ × AtomRow) × (ℕ × AtomRow)) :=
  rows.enum.flatMap (fun p =>
    rows.enum.filterMap (fun q =>
      if p.1 < q.1 ∧ dist2 p.2.1 q.2.1 ≤ r ^ 2 then some (p, q) else none))

/-- `guess_bonds` (`nearest_neighbour.py`, lines 91-118): accept a pair when
its squared distance is below `(r_i + r_j + threshold) ^ 2`; the computed
lower bound `thr_a = rval - threshold` is unused in the source (the line
squaring it is commented out).  A bond is `(start, end, squared length)`;
the source stores `math.sqrt(dr2)`, kept squared here. -/
def guessBonds (atoms : List AtomRow) (radii : String → ℚ)
    (threshold maxLength : ℚ) : List (ℕ × ℕ × ℚ) :=
  (queryPairsE atoms maxLength).filterMap (fun pq =>
    let a : ℚ := radii pq.1.2.2
    let b : ℚ := radii pq.2.2.2
    let rval : ℚ := a + b
    let thrB : ℚ := rval + threshold
    let dr2 : ℚ := dist2 pq.1.2.1 pq.2.2.1
    if dr2 < thrB ^ 2 then some (pq.1.1, pq.2.1, dr2) else none)

/-- `guess_bonds` including its index precondition (lines 84-85): the atoms
dataframe is a list of rows each carrying its index label; the computation
proceeds only when the labels are exactly `[0, 1, ..., N-1]`. -/
def guessBondsChecked (df : List (ℕ × AtomRow)) (radii : String → ℚ)
    (threshold maxLength : ℚ) : Except String (List (ℕ × ℕ × ℚ)) :=
  if df.map (fun r => r.1) = List.range df.length then
    Except.ok (guessBonds (df.map (fun r => r.2)) radii threshold maxLength)
  else
    Except.error "the index for atoms_df must be in order, i.e. [0,1,2,...]"

/-! ### The longest-chain search (`_createTreeFromEdges`, `_longest_path`) -/

/-- Adjacency mapping, modelling the Python dict from node to neighbour list
(an association list; every map the source builds has unique keys). -/
abbrev Tree : Type := List (ℕ × List ℕ)

/-- Python `tree.setdefault(v1, []).append(v2)`. -/
def treeAppend (t : Tree) (k v : ℕ) : Tree :=
  match t with
  | [] => [(k, [v])]
  | e :: rest => if e.1 = k then (e.1, e.2 ++ [v]) :: rest else e :: treeAppend rest k v

/-- `_createTreeFromEdges`: symmetrise an edge list into an adjacency map. -/
def createTreeFromEdges (edges : List (ℕ × ℕ)) : Tree :=
  edges.foldl (fun t e => treeAppend (treeAppend t e.1 e.2) e.2 e.1) []

/-- Python `start in tree` / `tree[start]`. -/
def treeFind (t : Tree) (k : ℕ) : Option (List ℕ) :=
  (t.find? (fun e => e.1 == k)).map Prod.snd

/-- Python `new_tree = tree.copy(); new_tree[start] = []`. -/
def treeEmpty (t : Tree) (k : ℕ) : Tree :=
  t.map (fun e => if e.1 = k then (e.1, ([] : List ℕ)) else e)

/-- Total number of adjacency entries: the quantity that strictly decreases
along every recursion chain of `_longest_path`. -/
def treeSize (t : Tree) : ℕ :=
  (t.map (fun e => e.2.length)).sum

/-- `_longest_path` (lines 33-55), with explicit fuel (structural, so the
kernel can evaluate it): the `for node in nodes` loop is the fold, keeping
the longest recursively computed path and skipping the node we just came
from.  The source recursion terminates because emptying the adjacency of
`start` strictly shrinks `treeSize`; `longestPath` below supplies
sufficient fuel, and the fuel-independence theorem for claim C10 shows the
fuel never runs out. -/
def longestPathGo : ℕ → ℕ → Tree → Option ℕ → List ℕ
  | 0, _, _, _ => []
  | f + 1, start, tree, lastnode =>
    match treeFind tree start with
    | none => []
    | some nodes =>
      (nodes.foldl (fun path node =>
        if some node = lastnode then path
        else if path.length
            < (longestPathGo f node (treeEmpty tree start) (some start)).length
          then longestPathGo f node (treeEmpty tree start) (some start)
          else path) []) ++ [start]

/-- `_longest_path` as called by the source (sufficient fuel supplied). -/
def longestPath (start : ℕ) (tree : Tree) (lastnode : Option ℕ) : List ℕ :=
  longestPathGo (treeSize tree + 1) start tree lastnode

/-! ### The per-pair CNA signature (`common_neighbour_analysis`, lines 423-441) -/

/-- The shared-neighbour set `set(nn_ids[nn]).intersection(nns)` (a Python
set, modelled as a duplicate-free list). -/
def commonNNs (nnIds : ℕ → List ℕ) (nns : List ℕ) (nn : ℕ) : List ℕ :=
  ((nnIds nn).filter (fun x => decide (x ∈ nns))).dedup

/-- Signature component j: the number of shared nearest neighbours. -/
def cnaJ (nnIds : ℕ → List ℕ) (nns : List ℕ) (nn : ℕ) : ℕ :=
  (commonNNs nnIds nns nn).length

/-- Python `sorted((common_nn, nn_bond))`. -/
def sortPair (c d : ℕ) : ℕ × ℕ := if c ≤ d then (c, d) else (d, c)

/-- Append a bond unless already present (`if sorted(...) not in nn_bonds`). -/
def addBond (bonds : List (ℕ × ℕ)) (b : ℕ × ℕ) : List (ℕ × ℕ) :=
  if b ∈ bonds then bonds else bonds ++ [b]

/-- The nested bond-collection loops of `common_neighbour_analysis`
(lines 428-432): for every shared neighbour `c` and every `d` in
`set(nn_ids[c]).intersection(common_nns)`, record the sorted pair once. -/
def cnaBonds (nnIds : ℕ → List ℕ) (common : List ℕ) : List (ℕ × ℕ) :=
  common.foldl (fun bonds c =>
    ((((nnIds c).filter (fun d => decide (d ∈ common))).dedup).map (sortPair c)).foldl
      addBond bonds) []

/-- Signature component k: the number of bonds between shared neighbours. -/
def cnaK (nnIds : ℕ → List ℕ) (nns : List ℕ) (nn : ℕ) : ℕ :=
  (cnaBonds nnIds (commonNNs nnIds nns nn)).length

/-- Signature component l (lines 434-439): the maximum of `[0]` and
`len(_longest_path(node, tree)) - 1` over the keys of the bond tree. -/
def cnaL (nnIds : ℕ → List ℕ) (nns : List ℕ) (nn : ℕ) : ℕ :=
  let tree := createTreeFromEdges (cnaBonds nnIds (commonNNs nnIds nns nn))
  (tree.map (fun e => (longestPath e.1 tree none).length - 1)).foldl max 0

/-- The string key recorded in the per-atom counter. -/
def jklString (nnIds : ℕ → List ℕ) (nns : List ℕ) (nn : ℕ) : String :=
  Nat.repr (cnaJ nnIds nns nn) ++ "," ++ Nat.repr (cnaK nnIds nns nn) ++ ","
    ++ Nat.repr (cnaL nnIds nns nn)

/-! ### Building the neighbour dictionary (`common_neighbour_analysis`, lines 402-413)

The external KD-tree self-query (`lattice_tree.query(..., k=max_neighbours+1,
distance_upper_bound=upper_bound)`) returns, per lattice point, a row of
`max_neighbours + 1 ≥ 1` distances (sentinel `∞` for missing neighbours,
modelled as `none`) and the corresponding ids; a row is modelled with its
first entry explicit since the source indexes `dists[0]` and `ids[0]`. -/

/-- A query row: (first distance, remaining distances, first id, remaining ids). -/
abbrev CnaRow : Type := (Option ℚ × List (Option ℚ)) × (ℕ × List ℕ)

/-- The mask `np.logical_and(dists>0.01, dists<np.inf)` applied to the ids. -/
def nnMask (dists : List (Option ℚ)) (ids : List ℕ) : List ℕ :=
  (dists.zip ids).filterMap (fun di =>
    match di.1 with
    | none => none
    | some d => if 1 / 100 < d then some di.2 else none)

/-- The `nn_ids` dictionary-building loop, including `assert dists[0]==0`:
the assertion failure aborts the whole computation (no partial result). -/
def buildNNIds : List CnaRow → Except Unit (List (ℕ × List ℕ))
  | [] => Except.ok []
  | r :: rest =>
    if r.1.1 = some 0 then
      match buildNNIds rest with
      | Except.ok l =>
          Except.ok ((r.2.1, nnMask (r.1.1 :: r.1.2) (r.2.1 :: r.2.2)) :: l)
      | Except.error e => Except.error e
    else Except.error ()

/-- Dictionary lookup `nn_ids[nn]` over the built association list. -/
def nnLookup (nnIds : List (ℕ × List ℕ)) (n : ℕ) : List ℕ :=
  ((nnIds.find? (fun p => p.1 == n)).map Prod.snd).getD []

/-- `collections.Counter` of a list of signature strings. -/
def toCounter (l : List String) : String → ℕ := fun s => l.count s

/-- `common_neighbour_analysis` from the neighbour-dictionary stage on: the
`ipython_progress` flag only drives notebook display output in the source
(`clear_output` / `print`), so it touches no data; the result is the list of
(atom id, signature counter) for ids at most `max_id`. -/
def commonNeighbourAnalysis (ipythonProgress : Bool) (rows : List CnaRow)
    (maxId : ℕ) : Except Unit (List (ℕ × (String → ℕ))) :=
  match buildNNIds rows with
  | Except.error e => Except.error e
  | Except.ok nnIds =>
      Except.ok ((nnIds.filter (fun p => decide (p.1 ≤ maxId))).map (fun p =>
        (p.1, toCounter (p.2.map (fun nn => jklString (nnLookup nnIds) p.2 nn)))))

/-! ### The classifier (`_equala`, `cna_categories`, lines 453-507) -/

/-- `_equala(i, j, accuracy)`: `j*accuracy <= i <= j + j*(1-accuracy)`. -/
def equala (i j : ℕ) (accuracy : ℚ) : Bool :=
  decide ((j : ℚ) * accuracy ≤ (i : ℚ)) && decide ((i : ℚ) ≤ (j : ℚ) + (j : ℚ) * (1 - accuracy))

/-- The label-assignment chain of `cna_categories` for one atom counter. -/
def cnaCategory (counter : String → ℕ) (accuracy : ℚ) : String :=
  if equala (counter "4,2,1") 6 accuracy && equala (counter "4,2,2") 6 accuracy then "HCP"
  else if equala (counter "4,2,1") 12 accuracy then "FCC"
  else if equala (counter "6,6,6") 8 accuracy && equala (counter "4,4,4") 6 accuracy then "BCC"
  else if equala (counter "5,4,3") 12 accuracy && equala (counter "6,6,3") 4 accuracy then "Diamond"
  else if equala (counter "5,5,5") 12 accuracy then "Icosahedral"
  else "Other"

/-- The per-atom loop of `cna_categories`. -/
def cnaCategories (counters : List (String → ℕ)) (accuracy : ℚ) : List String :=
  counters.map (fun c => cnaCategory c accuracy)

/-! ### Coordination counting (`coordination`, lines 195-206) -/

/-- Modelled from the spec: the external KD-tree k-nearest query for one
subject atom, given the (unsorted) list of its distances to every lattice
point: the `k` nearest distances in ascending order, those at or beyond the
cutoff replaced by the sentinel `∞` (`none`), padded to length `k`. -/
def kdQueryDists (dists : List ℚ) (k : ℕ) (ub : ℚ) : List (Option ℚ) :=
  let within := (dists.filter (fun d => decide (d < ub))).insertionSort (· ≤ ·)
  (within.take k).map some ++ List.replicate (k - within.length) none

/-- The per-atom count `np.count_nonzero(np.logical_and(dists>min_dist,
dists<np.inf))` over one sentinel-padded query row. -/
def coordinationOne (dists : List ℚ) (k : ℕ) (maxDist minDist : ℚ) : ℕ :=
  ((kdQueryDists dists k maxDist).filterMap id).countP (fun d => decide (minDist < d))

/-- `coordination`: one count per subject atom, each row holding the subject
atom's distances to every lattice point. -/
def coordination (allDists : List (List ℚ)) (k : ℕ) (maxDist minDist : ℚ) : List ℕ :=
  allDists.map (fun dists => coordinationOne dists k maxDist minDist)

/-! ### Periodic expansion (`Atom_Manipulation.repeat_cell`) -/

/-- Pointwise vector addition. -/
def ptAdd (p q : Pt) : Pt := (p.1 + q.1, p.2.1 + q.2.1, p.2.2 + q.2.2)

/-- Integer scaling of a lattice vector. -/
def ptSMul (i : ℤ) (v : Pt) : Pt := ((i : ℚ) * v.1, (i : ℚ) * v.2.1, (i : ℚ) * v.2.2)

/-- Python `range(lo, hi + 1)`. -/
def intRange (lo hi : ℤ) : List ℤ :=
  (List.range (hi + 1 - lo).toNat).map (fun n => lo + (n : ℤ))

/-- The translation `i*vectors[0] + j*vectors[1] + k*vectors[2]` applied to an
atom position. -/
def translatePt (v1 v2 v3 : Pt) (i j k : ℤ) (p : Pt) : Pt :=
  ptAdd p (ptAdd (ptAdd (ptSMul i v1) (ptSMul j v2)) (ptSMul k v3))

/-- `Atom_Manipulation.repeat_cell` (`atom_manipulation.py`, lines 130-140):
concatenate one translated copy of the atom table per offset combination,
iterating each axis range inclusively. -/
def repeat_cell (atoms : List Pt) (v1 v2 v3 : Pt) (r1 r2 r3 : ℤ × ℤ) : List Pt :=
  (intRange r1.1 r1.2).flatMap (fun i =>
    (intRange r2.1 r2.2).flatMap (fun j =>
      (intRange r3.1 r3.2).flatMap (fun k =>
        atoms.map (translatePt v1 v2 v3 i j k))))

/-- Modelled from the spec: the `original_first` variant of
`Atom_Manipulation.repeat_cell` invoked by `common_neighbour_analysis` and
`vacancy_identification` (this variant of `Atom_Manipulation` is not among
the source files; spec 4.2: the expansion contains the original atoms plus
their images under every other offset combination, and with original-first
ordering indices `0..N-1` of the result are the original unexpanded set). -/
def repeat_cell_original_first (atoms : List Pt) (v1 v2 v3 : Pt)
    (r1 r2 r3 : ℤ × ℤ) : List Pt :=
  atoms ++ (intRange r1.1 r1.2).flatMap (fun i =>
    (intRange r2.1 r2.2).flatMap (fun j =>
      (intRange r3.1 r3.2).flatMap (fun k =>
        if i = 0 ∧ j = 0 ∧ k = 0 then []
        else atoms.map (translatePt v1 v2 v3 i j k))))

/-! ### Vacancy identification (`vacancy_identification`, lines 280-350) -/

/-- `vacancy_identification` from the grid stage on: `grid` is the candidate
lattice `np.mgrid[...]`; a candidate is kept iff its nearest real-lattice
distance is the sentinel `∞`, i.e. every lattice point is farther than
`nn_dist` (modelled from the spec for the external k=1 KD query); duplicate
vacancies drop the first member of every close pair.  `ipythonProgress`
only drives notebook display output and `nJobs` is only handed to the
external KD query, whose result it does not affect (spec section 5). -/
def vacancyIdentification (ipythonProgress : Bool) (nJobs : ℤ)
    (grid lattice : List Pt) (nnDist : ℚ) (removeDups : Bool) : List Pt :=
  let vacs := grid.filter (fun p => lattice.all (fun a => decide (nnDist ^ 2 < dist2 p a)))
  if removeDups ∧ 0 < vacs.length then
    let pairs := queryPairs vacs nnDist
    let dropIdx : List ℕ := pairs.map (fun q => q.1)
    (vacs.enum.filterMap (fun q => if q.1 ∈ dropIdx then none else some q.2))
  else vacs

/-! ### Spec-side definitions (written from the spec's words, for comparison
with the source-side definitions above) -/

/-- The adjacency list of a node (empty when absent), `tree.get(k, [])`. -/
def treeAdj (t : Tree) (k : ℕ) : List ℕ := (treeFind t k).getD []

/-- Adjacency in the shared-neighbour bond sub-graph: the unordered bond
is recorded in either orientation. -/
def adjB (bonds : List (ℕ × ℕ)) (c d : ℕ) : Bool :=
  decide ((c, d) ∈ bonds) || decide ((d, c) ∈ bonds)

/-- A continuation of a walk: from `cur`, having arrived from `prev`, the
remaining nodes each follow a bond and never return to the node the walk
just came from. -/
def nbWalkFrom (bonds : List (ℕ × ℕ)) : Option ℕ → ℕ → List ℕ → Bool
  | _, _, [] => true
  | prev, cur, next :: rest =>
    adjB bonds cur next && decide (some next ≠ prev) && nbWalkFrom bonds (some cur) next rest

/-- The claim's walks: a nonempty node sequence following bond-graph edges
that never immediately returns to the node it just came from (nodes may
otherwise be revisited); its edge count is its length minus one. -/
def isNBWalk (bonds : List (ℕ × ℕ)) (w : List ℕ) : Bool :=
  match w with
  | [] => false
  | v :: rest => nbWalkFrom bonds none v rest

/-- The spec's sub-graph edge set: unordered pairs of distinct shared
neighbours (stored with the smaller index first) connected iff one appears
in the other's neighbour list, each pair counted once regardless of
direction. -/
def cnaBondFinset (nnIds : ℕ → List ℕ) (common : List ℕ) : Finset (ℕ × ℕ) :=
  (common.toFinset ×ˢ common.toFinset).filter
    (fun e => e.1 < e.2 ∧ (e.2 ∈ nnIds e.1 ∨ e.1 ∈ nnIds e.2))

/-- The spec's matching rule, written as the spec words it:
`expected*tolerance <= count <= expected*(2-tolerance)`. -/
def matchesSpecB (count expected : ℕ) (tol : ℚ) : Bool :=
  decide ((expected : ℚ) * tol ≤ (count : ℚ) ∧ (count : ℚ) ≤ (expected : ℚ) * (2 - tol))

/-- The spec's rule table, in its fixed priority order. -/
def specRules (c : String → ℕ) (tol : ℚ) : List (String × Bool) :=
  [("HCP", matchesSpecB (c "4,2,1") 6 tol && matchesSpecB (c "4,2,2") 6 tol),
   ("FCC", matchesSpecB (c "4,2,1") 12 tol),
   ("BCC", matchesSpecB (c "6,6,6") 8 tol && matchesSpecB (c "4,4,4") 6 tol),
   ("Diamond", matchesSpecB (c "5,4,3") 12 tol && matchesSpecB (c "6,6,3") 4 tol),
   ("Icosahedral", matchesSpecB (c "5,5,5") 12 tol)]

/-- First matching rule wins, `Other` when none matches (spec side). -/
def specLabel (c : String → ℕ) (tol : ℚ) : String :=
  (((specRules c tol).find? (fun r => r.2)).map Prod.fst).getD "Other"

/-- The claim's description of the coordination count: among the subject
atom's `max_coord` nearest lattice distances, those strictly between the
minimum threshold and the cutoff. -/
def coordinationSpecOne (dists : List ℚ) (k : ℕ) (maxDist minDist : ℚ) : ℕ :=
  ((dists.insertionSort (· ≤ ·)).take k).countP
    (fun d => decide (minDist < d) && decide (d < maxDist))

/-! ### Concrete inputs used by counterexamples, witnesses and evaluations -/

/-- A neighbour dictionary in which atoms 10 and 11 are bonded and share the
three mutually-bonded neighbours 0, 1, 2 (a triangle sub-graph).  It is
realisable at the default cutoff 4: place 0, 1, 2 as an equilateral
triangle of side 3 in the z = 0 plane centred at the origin and atoms 10
and 11 at (0, 0, 1.95) and (0, 0, -1.95); then every listed pair is within
distance 4 and no other pair exists. -/
def triNNIds : ℕ → List ℕ := fun n =>
  if n = 10 then [11, 0, 1, 2]
  else if n = 11 then [10, 0, 1, 2]
  else if n = 0 then [1, 2, 10, 11]
  else if n = 1 then [0, 2, 10, 11]
  else if n = 2 then [0, 1, 10, 11]
  else []

/-- The four-atom bond-guessing scenario of spec section 8. -/
def bondAtoms : List (ℕ × AtomRow) :=
  [(0, ((2, 3, 4), "X")), (1, ((1, 3, 3), "X")), (2, ((4, 3, 1), "X")),
   (3, ((3, 4, 1), "X"))]

/-- Covalent radius 1.0 for every type, as in the scenario. -/
def bondRadii : String → ℚ := fun _ => 1

/-! ## Claim C4: periodic expansion -/

/-- Claim C4: a single repeat step per axis, range (-1, 1) on each of the
three axes, yields exactly 27 times the input point count — both for the
source `repeat_cell` and for its spec-modelled `original_first` variant —
and with original-first ordering indices `0..N-1` of the expanded set are
exactly the original unexpanded set, in order. -/
theorem c4_periodic_expansion (atoms : List Pt) (v1 v2 v3 : Pt) :
    (repeat_cell atoms v1 v2 v3 (-1, 1) (-1, 1) (-1, 1)).length = 27 * atoms.length ∧
    (repeat_cell_original_first atoms v1 v2 v3 (-1, 1) (-1, 1) (-1, 1)).length
      = 27 * atoms.length ∧
    (repeat_cell_original_first atoms v1 v2 v3 (-1, 1) (-1, 1) (-1, 1)).take atoms.length
      = atoms := by
  have hr : intRange (-1) 1 = [-1, 0, 1] := by decide
  refine ⟨?_, ?_, ?_⟩
  · simp [repeat_cell, hr]
    ring
  · simp [repeat_cell_original_first, hr]
    ring
  · simp [repeat_cell_original_first]

/-! ## Claim C6: the four-atom bond-guessing scenario -/

/-- Claim C6 evaluation: on the scenario input the source returns the two
bonds (0,1) and (2,3), each of squared length 2 (length √2 ≈ 1.41 Å), even
though √2 lies outside the claimed window [1.9, 2.1] (2 < 1.9²): the lower
threshold `thr_a = rval - threshold` is computed but never applied in the
source, contradicting its own docstring. -/
theorem c6_guess_bonds_eval :
    guessBondsChecked bondAtoms bondRadii (1 / 10) 5
      = Except.ok [(0, 1, (2 : ℚ)), (2, 3, (2 : ℚ))] ∧
    (2 : ℚ) < (19 / 10) ^ 2 := by
  constructor
  · have hrange : List.range 4 = [0, 1, 2, 3] := rfl
    norm_num [guessBondsChecked, bondAtoms, bondRadii, guessBonds, queryPairsE, dist2,
      hrange, List.enum, List.enumFrom, List.flatMap, List.filterMap_cons,
      List.filterMap_nil]
  · norm_num

/-! ## Claim C8: the contiguous-index precondition of guess_bonds -/

/-- Claim C8: `guess_bonds` fails with the descriptive index error, returning
no partial result, exactly when the index labels are not `[0, ..., N-1]`;
with a contiguous zero-based index the computation proceeds. -/
theorem c8_index_precondition (df : List (ℕ × AtomRow)) (radii : String → ℚ)
    (threshold maxLength : ℚ) :
    (df.map (fun r => r.1) = List.range df.length →
      guessBondsChecked df radii threshold maxLength
        = Except.ok (guessBonds (df.map (fun r => r.2)) radii threshold maxLength)) ∧
    (df.map (fun r => r.1) ≠ List.range df.length →
      guessBondsChecked df radii threshold maxLength
        = Except.error "the index for atoms_df must be in order, i.e. [0,1,2,...]") := by
  constructor
  · intro h
    simp [guessBondsChecked, h]
  · intro h
    simp [guessBondsChecked, h]

/-- Witness for C8 at a concrete contiguous-index table and a concrete
broken-index table. -/
theorem c8_index_precondition_witness :
    guessBondsChecked bondAtoms bondRadii (1 / 10) 5
      = Except.ok (guessBonds (bondAtoms.map (fun r => r.2)) bondRadii (1 / 10) 5) ∧
    guessBondsChecked [(7, dummyRow)] bondRadii (1 / 10) 5
      = Except.error "the index for atoms_df must be in order, i.e. [0,1,2,...]" :=
  ⟨(c8_index_precondition bondAtoms bondRadii (1 / 10) 5).1 (by decide),
   (c8_index_precondition [(7, dummyRow)] bondRadii (1 / 10) 5).2 (by decide)⟩

/-! ## Claim C9: progress reporting and worker count do not alter results -/

/-- Claim C9: two runs of `common_neighbour_analysis` differing only in the
progress flag return equal results, and two runs of
`vacancy_identification` differing only in the progress flag and the
worker count return equal results (the flag drives display output only and
the worker count is only handed to the external spatial query). -/
theorem c9_parameter_independence (p1 p2 : Bool) (n1 n2 : ℤ) (rows : List CnaRow)
    (maxId : ℕ) (grid lattice : List Pt) (nnDist : ℚ) (removeDups : Bool) :
    commonNeighbourAnalysis p1 rows maxId = commonNeighbourAnalysis p2 rows maxId ∧
    vacancyIdentification p1 n1 grid lattice nnDist removeDups
      = vacancyIdentification p2 n2 grid lattice nnDist removeDups :=
  ⟨rfl, rfl⟩

/-! ## Claim C7: the self-distance assertion in CNA -/

/-- The dictionary-building loop succeeds exactly when every query row's
first distance is zero. -/
theorem buildNNIds_ok_iff (rows : List CnaRow) :
    (∃ l, buildNNIds rows = Except.ok l) ↔ ∀ r ∈ rows, r.1.1 = some 0 := by
  induction rows with
  | nil => exact ⟨fun _ => by simp, fun _ => ⟨[], rfl⟩⟩
  | cons r rest ih =>
    by_cases h : r.1.1 = some 0
    · cases hrest : buildNNIds rest with
      | ok l =>
        simp only [buildNNIds, h, if_pos, hrest]
        constructor
        · intro _ x hx
          rcases List.mem_cons.mp hx with rfl | hx
          · exact h
          · exact (ih.mp ⟨l, hrest⟩) x hx
        · intro _
          exact ⟨_, rfl⟩
      | error e =>
        simp only [buildNNIds, h, if_pos, hrest]
        constructor
        · rintro ⟨l, hl⟩
          exact absurd hl (by simp)
        · intro hall
          rcases ih.mpr (fun x hx => hall x (List.mem_cons_of_mem r hx)) with ⟨l, hl⟩
          rw [hl] at hrest
          exact absurd hrest (by simp)
    · simp only [buildNNIds, h, if_neg, not_false_iff]
      constructor
      · rintro ⟨l, hl⟩
        exact absurd hl (by simp)
      · intro hall
        exact absurd (hall r (List.mem_cons_self r rest)) h

/-- Claim C7: `common_neighbour_analysis` raises (fails with no partial
result) exactly when some lattice point's self-query does not report
distance 0 first; when every self-query distance is 0 the failure never
occurs. -/
theorem c7_self_distance_assert (prog : Bool) (rows : List CnaRow) (maxId : ℕ) :
    (commonNeighbourAnalysis prog rows maxId = Except.error ()
      ↔ ∃ r ∈ rows, r.1.1 ≠ some 0) ∧
    ((∀ r ∈ rows, r.1.1 = some 0) →
      ∃ t, commonNeighbourAnalysis prog rows maxId = Except.ok t) := by
  constructor
  · cases hb : buildNNIds rows with
    | ok l =>
      simp only [commonNeighbourAnalysis, hb]
      constructor
      · intro h
        exact absurd h (by simp)
      · intro h
        rcases h with ⟨r, hr, hne⟩
        exact absurd ((buildNNIds_ok_iff rows).mp ⟨l, hb⟩ r hr) hne
    | error e =>
      simp only [commonNeighbourAnalysis, hb]
      constructor
      · intro _
        by_contra hno
        push_neg at hno
        rcases (buildNNIds_ok_iff rows).mpr hno with ⟨l, hl⟩
        rw [hl] at hb
        exact absurd hb (by simp)
      · intro _
        trivial
  · intro hall
    rcases (buildNNIds_ok_iff rows).mpr hall with ⟨l, hl⟩
    exact ⟨(l.filter (fun p => decide (p.1 ≤ maxId))).map (fun p =>
        (p.1, toCounter (p.2.map (fun nn => jklString (nnLookup l) p.2 nn)))),
      by simp only [commonNeighbourAnalysis, hl]⟩

/-! ## Claim C2: the j and k signature components -/

theorem mem_addBond (bonds : List (ℕ × ℕ)) (b x : ℕ × ℕ) :
    x ∈ addBond bonds b ↔ x ∈ bonds ∨ x = b := by
  unfold addBond
  by_cases h : b ∈ bonds
  · simp only [h, if_true]
    constructor
    · exact Or.inl
    · rintro (hx | rfl)
      · exact hx
      · exact h
  · simp [h]

theorem nodup_addBond (bonds : List (ℕ × ℕ)) (b : ℕ × ℕ) (h : bonds.Nodup) :
    (addBond bonds b).Nodup := by
  unfold addBond
  by_cases hb : b ∈ bonds
  · simpa [hb] using h
  · simp only [hb, if_false]
    exact h.append (List.nodup_singleton b)
      (fun a ha hab => hb ((List.mem_singleton.mp hab) ▸ ha))

theorem mem_foldl_addBond (l : List (ℕ × ℕ)) :
    ∀ (acc : List (ℕ × ℕ)) (x : ℕ × ℕ),
      x ∈ l.foldl addBond acc ↔ x ∈ acc ∨ x ∈ l := by
  induction l with
  | nil => intro acc x; simp
  | cons b rest ih =>
    intro acc x
    rw [List.foldl_cons, ih, mem_addBond]
    constructor
    · rintro ((hx | rfl) | hx)
      · exact Or.inl hx
      · exact Or.inr (List.mem_cons_self _ _)
      · exact Or.inr (List.mem_cons_of_mem _ hx)
    · rintro (hx | hx)
      · exact Or.inl (Or.inl hx)
      · rcases List.mem_cons.mp hx with rfl | hx
        · exact Or.inl (Or.inr rfl)
        · exact Or.inr hx

theorem nodup_foldl_addBond (l : List (ℕ × ℕ)) :
    ∀ acc : List (ℕ × ℕ), acc.Nodup → (l.foldl addBond acc).Nodup := by
  induction l with
  | nil => intro acc h; exact h
  | cons b rest ih => intro acc h; exact ih _ (nodup_addBond _ _ h)

/-- The nested bond loops are one dedup-appending fold over all candidate
sorted pairs. -/
theorem cnaBonds_eq_flat (nnIds : ℕ → List ℕ) (common : List ℕ) :
    cnaBonds nnIds common
      = (common.flatMap (fun c =>
          (((nnIds c).filter (fun d => decide (d ∈ common))).dedup).map
            (sortPair c))).foldl addBond [] := by
  suffices h : ∀ (cs : List ℕ) (acc : List (ℕ × ℕ)),
      cs.foldl (fun bonds c =>
        ((((nnIds c).filter (fun d => decide (d ∈ common))).dedup).map
          (sortPair c)).foldl addBond bonds) acc
        = (cs.flatMap (fun c =>
            (((nnIds c).filter (fun d => decide (d ∈ common))).dedup).map
              (sortPair c))).foldl addBond acc by
    exact h common []
  intro cs
  induction cs with
  | nil => intro acc; rfl
  | cons c rest ih =>
    intro acc
    rw [List.foldl_cons, ih, List.flatMap_cons, List.foldl_append]

theorem mem_cnaBonds (nnIds : ℕ → List ℕ) (common : List ℕ) (x : ℕ × ℕ) :
    x ∈ cnaBonds nnIds common
      ↔ ∃ c, c ∈ common ∧ ∃ d, d ∈ nnIds c ∧ d ∈ common ∧ sortPair c d = x := by
  rw [cnaBonds_eq_flat, mem_foldl_addBond]
  simp [List.mem_flatMap, List.mem_dedup, List.mem_filter]
  constructor
  · rintro ⟨c, hc, d, ⟨hdN, hdC⟩, hx⟩
    exact ⟨c, hc, d, hdN, hdC, hx⟩
  · rintro ⟨c, hc, d, hdN, hdC, hx⟩
    exact ⟨c, hc, d, ⟨hdN, hdC⟩, hx⟩

theorem nodup_cnaBonds (nnIds : ℕ → List ℕ) (common : List ℕ) :
    (cnaBonds nnIds common).Nodup := by
  rw [cnaBonds_eq_flat]
  exact nodup_foldl_addBond _ _ List.nodup_nil

theorem sortPair_of_le (c d : ℕ) (h : c ≤ d) : sortPair c d = (c, d) := if_pos h

theorem sortPair_of_gt (c d : ℕ) (h : ¬c ≤ d) : sortPair c d = (d, c) := if_neg h

/-- Claim C2: for every pair (atom with neighbour list `nns`, neighbour
`nn`) of the CNA computation, j is the cardinality of the intersection of
the two neighbour sets, and k is the number of unordered pairs of distinct
shared neighbours connected in either direction, counted once each.  The
hypothesis (true of every neighbour dictionary the source builds, since the
mask `dists > 0.01` removes the self match) is that no shared neighbour
lists itself as its own neighbour. -/
theorem c2_jk_signature (nnIds : ℕ → List ℕ) (nns : List ℕ) (nn : ℕ)
    (hirr : ∀ c ∈ commonNNs nnIds nns nn, c ∉ nnIds c) :
    cnaJ nnIds nns nn = ((nnIds nn).toFinset ∩ nns.toFinset).card ∧
    cnaK nnIds nns nn = (cnaBondFinset nnIds (commonNNs nnIds nns nn)).card := by
  constructor
  · rw [cnaJ, commonNNs, ← List.card_toFinset]
    congr 1
    ext a
    simp [List.mem_filter]
  · rw [cnaK, ← List.toFinset_card_of_nodup (nodup_cnaBonds nnIds _)]
    congr 1
    ext x
    rw [List.mem_toFinset, mem_cnaBonds]
    constructor
    · rintro ⟨c, hc, d, hdN, hdC, rfl⟩
      have hne : c ≠ d := fun h => (hirr c hc) (h ▸ hdN)
      rcases le_or_lt c d with hle | hlt
      · rw [sortPair_of_le c d hle]
        simp only [cnaBondFinset, Finset.mem_filter, Finset.mem_product,
          List.mem_toFinset]
        exact ⟨⟨hc, hdC⟩, lt_of_le_of_ne hle hne, Or.inl hdN⟩
      · rw [sortPair_of_gt c d (not_le_of_lt hlt)]
        simp only [cnaBondFinset, Finset.mem_filter, Finset.mem_product,
          List.mem_toFinset]
        exact ⟨⟨hdC, hc⟩, hlt, Or.inr hdN⟩
    · intro hx
      simp only [cnaBondFinset, Finset.mem_filter, Finset.mem_product,
        List.mem_toFinset] at hx
      obtain ⟨⟨h1, h2⟩, hlt, hor⟩ := hx
      cases hor with
      | inl h =>
        refine ⟨x.1, h1, x.2, h, h2, ?_⟩
        rw [sortPair_of_le x.1 x.2 (le_of_lt hlt)]
      | inr h =>
        refine ⟨x.2, h2, x.1, h, h1, ?_⟩
        rw [sortPair_of_gt x.2 x.1 (not_le_of_lt hlt)]

/-- Witness for C2 at the concrete triangle dictionary: atom 10, neighbour
11, shared neighbours 0, 1, 2. -/
theorem c2_jk_signature_witness :
    (∀ c ∈ commonNNs triNNIds (triNNIds 10) 11, c ∉ triNNIds c) ∧
    cnaJ triNNIds (triNNIds 10) 11
      = ((triNNIds 11).toFinset ∩ (triNNIds 10).toFinset).card ∧
    cnaK triNNIds (triNNIds 10) 11
      = (cnaBondFinset triNNIds (commonNNs triNNIds (triNNIds 10) 11)).card :=
  ⟨by decide, c2_jk_signature triNNIds (triNNIds 10) 11 (by decide)⟩

/-! ## Claim C3: the tolerance-banded classifier -/

/-- The source's banded window `j*accuracy <= i <= j + j*(1-accuracy)` is the
spec's window `j*accuracy <= i <= j*(2-accuracy)`. -/
theorem equala_eq_matchesSpecB (i j : ℕ) (tol : ℚ) :
    equala i j tol = matchesSpecB i j tol := by
  have h : (j : ℚ) + (j : ℚ) * (1 - tol) = (j : ℚ) * (2 - tol) := by ring
  rw [Bool.eq_iff_iff]
  simp [equala, matchesSpecB, h]

/-- Claim C3: for every per-atom signature counter and tolerance in (0, 1],
the classifier's banded window is exactly `e*tol <= count <= e*(2-tol)`, the
assigned label is the first of HCP, FCC, BCC, Diamond, Icosahedral whose
rule holds (`Other` when none holds), and tolerance 1 makes the window an
exact match. -/
theorem c3_classifier (c : String → ℕ) (tol : ℚ) (h0 : 0 < tol) (h1 : tol ≤ 1) :
    (∀ i j : ℕ, equala i j tol = true ↔
      ((j : ℚ) * tol ≤ (i : ℚ) ∧ (i : ℚ) ≤ (j : ℚ) * (2 - tol))) ∧
    cnaCategory c tol = specLabel c tol ∧
    (tol = 1 → ∀ i j : ℕ, (equala i j tol = true ↔ i = j)) := by
  refine ⟨?_, ?_, ?_⟩
  · intro i j
    rw [equala_eq_matchesSpecB]
    simp [matchesSpecB]
  · simp only [cnaCategory, specLabel, specRules, equala_eq_matchesSpecB]
    cases hb1 : matchesSpecB (c "4,2,1") 6 tol && matchesSpecB (c "4,2,2") 6 tol <;>
    cases hb2 : matchesSpecB (c "4,2,1") 12 tol <;>
    cases hb3 : matchesSpecB (c "6,6,6") 8 tol && matchesSpecB (c "4,4,4") 6 tol <;>
    cases hb4 : matchesSpecB (c "5,4,3") 12 tol && matchesSpecB (c "6,6,3") 4 tol <;>
    cases hb5 : matchesSpecB (c "5,5,5") 12 tol <;>
      simp [List.find?, hb1, hb2, hb3, hb4, hb5]
  · rintro rfl i j
    rw [equala_eq_matchesSpecB]
    simp only [matchesSpecB, decide_eq_true_eq, mul_one]
    norm_num
    constructor
    · rintro ⟨ha, hb⟩
      exact le_antisymm (by exact_mod_cast hb) (by exact_mod_cast ha)
    · rintro rfl
      simp

/-- Witness for C3 at tolerance 1 and the ideal FCC counter. -/
theorem c3_classifier_witness :
    ((0 : ℚ) < 1 ∧ (1 : ℚ) ≤ 1) ∧
    cnaCategory (fun s => if s = "4,2,1" then 12 else 0) 1
      = specLabel (fun s => if s = "4,2,1" then 12 else 0) 1 :=
  ⟨⟨by norm_num, le_refl 1⟩,
   (c3_classifier (fun s => if s = "4,2,1" then 12 else 0) 1 (by norm_num)
     (le_refl 1)).2.1⟩

/-! ## Claim C5: coordination counting -/

/-- On a sorted list, filtering by an upward-closed bound is a prefix. -/
theorem filter_lt_eq_takeWhile_sorted (ub : ℚ) (l : List ℚ)
    (hl : l.Sorted (· ≤ ·)) :
    l.filter (fun d => decide (d < ub)) = l.takeWhile (fun d => decide (d < ub)) := by
  induction l with
  | nil => rfl
  | cons x xs ih =>
    rcases List.sorted_cons.mp hl with ⟨hx, hxs⟩
    by_cases h : x < ub
    · simp [List.filter_cons, List.takeWhile_cons, h, ih hxs]
    · have hpx : decide (x < ub) = false := by simp [h]
      rw [List.filter_cons, List.takeWhile_cons, hpx]
      simp only [Bool.false_eq_true, if_false]
      rw [List.filter_eq_nil_iff]
      intro a ha
      simp only [decide_eq_true_eq]
      intro hlt
      exact h (lt_of_le_of_lt (hx a ha) hlt)

/-- Taking a prefix commutes with `takeWhile`. -/
theorem takeWhile_take_comm (p : ℚ → Bool) (l : List ℚ) :
    ∀ k : ℕ, (l.takeWhile p).take k = (l.take k).takeWhile p := by
  induction l with
  | nil => intro k; simp
  | cons x xs ih =>
    intro k
    cases k with
    | zero => simp
    | succ k =>
      by_cases h : p x
      · simp [List.takeWhile_cons, h, ih k]
      · simp [List.takeWhile_cons, h]

/-- On a sorted list, counting within a band equals counting the lower bound
on the prefix below the upper bound. -/
theorem countP_band_eq_takeWhile (ub mind : ℚ) (l : List ℚ)
    (hl : l.Sorted (· ≤ ·)) :
    l.countP (fun d => decide (mind < d) && decide (d < ub))
      = (l.takeWhile (fun d => decide (d < ub))).countP (fun d => decide (mind < d)) := by
  induction l with
  | nil => simp
  | cons x xs ih =>
    rcases List.sorted_cons.mp hl with ⟨hx, hxs⟩
    by_cases h : x < ub
    · by_cases hm : mind < x
      · simp [List.countP_cons, List.takeWhile_cons, h, hm, ih hxs]
      · simp [List.countP_cons, List.takeWhile_cons, h, hm, ih hxs]
    · have hpx : decide (x < ub) = false := by simp [h]
      rw [List.takeWhile_cons, hpx]
      simp only [Bool.false_eq_true, if_false, List.countP_nil]
      rw [List.countP_eq_zero]
      intro a ha
      simp only [Bool.and_eq_true, decide_eq_true_eq]
      rintro ⟨_, hlt⟩
      rcases List.mem_cons.mp ha with rfl | hmem
      · exact h hlt
      · exact h (lt_of_le_of_lt (hx a hmem) hlt)

/-- Nothing survives the sentinel filter of a padded query row except the
real distances. -/
theorem filterMap_id_replicate_none (n : ℕ) :
    (List.replicate n (none : Option ℚ)).filterMap id = [] := by
  induction n with
  | zero => rfl
  | succ n ih => simp [List.replicate_succ, ih]

/-- The per-atom coordination count of the source equals the claim's count. -/
theorem coordinationOne_eq_spec (dists : List ℚ) (k : ℕ) (maxDist minDist : ℚ) :
    coordinationOne dists k maxDist minDist
      = coordinationSpecOne dists k maxDist minDist := by
  have hs : (dists.insertionSort (· ≤ ·)).Sorted (· ≤ ·) :=
    List.sorted_insertionSort (· ≤ ·) dists
  have hw : ((dists.filter (fun d => decide (d < maxDist))).insertionSort (· ≤ ·))
      = (dists.insertionSort (· ≤ ·)).filter (fun d => decide (d < maxDist)) := by
    refine List.eq_of_perm_of_sorted ?_
      (List.sorted_insertionSort (· ≤ ·) _) (hs.filter _)
    exact (List.perm_insertionSort (· ≤ ·) _).trans
      ((List.perm_insertionSort (· ≤ ·) dists).filter _).symm
  have hfm : ∀ (l : List ℚ) (n : ℕ),
      ((l.map some ++ List.replicate n (none : Option ℚ)).filterMap id) = l := by
    intro l n
    simp [List.filterMap_append, filterMap_id_replicate_none, List.filterMap_map]
  rw [coordinationOne, kdQueryDists]
  simp only [hfm]
  rw [hw, filter_lt_eq_takeWhile_sorted _ _ hs, takeWhile_take_comm,
    coordinationSpecOne,
    countP_band_eq_takeWhile maxDist minDist _ (hs.sublist (List.take_sublist k _))]

/-- Claim C5: for every subject atom, the coordination number is the count,
among the atom's `max_coord` nearest lattice distances, of those strictly
greater than the minimum-distance threshold and strictly less than the
cutoff, sentinel entries excluded (the external KD query is modelled from
spec sections 4.1 and 4.3: sentinel-padded k-nearest within the cutoff). -/
theorem c5_coordination (allDists : List (List ℚ)) (k : ℕ) (maxDist minDist : ℚ) :
    coordination allDists k maxDist minDist
      = allDists.map (fun dists => coordinationSpecOne dists k maxDist minDist) := by
  simp [coordination, coordinationOne_eq_spec]

theorem c7_self_distance_assert_witness :
    (∃ t, commonNeighbourAnalysis true [((some 0, []), (0, []))] 0 = Except.ok t) ∧
    commonNeighbourAnalysis true [((some 1, []), (0, []))] 0 = Except.error () :=
  ⟨(c7_self_distance_assert true [((some 0, []), (0, []))] 0).2 (by simp),
   ((c7_self_distance_assert true [((some 1, []), (0, []))] 0).1).mpr
     ⟨_, List.mem_singleton.mpr rfl, by simp⟩⟩

/-! ## Claim C10: termination and shape of the longest-path search -/

theorem treeFind_cons (e : ℕ × List ℕ) (t : Tree) (k : ℕ) :
    treeFind (e :: t) k = if e.1 = k then some e.2 else treeFind t k := by
  by_cases h : e.1 = k
  · simp [treeFind, List.find?_cons_of_pos, h]
  · simp only [treeFind, h, if_false]
    rw [List.find?_cons_of_neg]
    simp [h]

theorem treeFind_eq_none_iff (t : Tree) (k : ℕ) :
    treeFind t k = none ↔ ∀ e ∈ t, e.1 ≠ k := by
  simp [treeFind, List.find?_eq_none]

/-- Emptying a node only shrinks adjacency lists. -/
theorem treeAdj_treeEmpty_subset (t : Tree) (k0 k d : ℕ)
    (h : d ∈ treeAdj (treeEmpty t k0) k) : d ∈ treeAdj t k := by
  induction t with
  | nil => exact h
  | cons e rest ih =>
    by_cases he : e.1 = k0
    · have hT : treeEmpty (e :: rest) k0 = (e.1, ([] : List ℕ)) :: treeEmpty rest k0 := by
        simp [treeEmpty, he]
      rw [hT] at h
      simp only [treeAdj, treeFind_cons] at h ⊢
      by_cases hk : e.1 = k
      · rw [if_pos hk] at h
        exact absurd h (by simp)
      · rw [if_neg hk] at h
        rw [if_neg hk]
        exact ih h
    · have hT : treeEmpty (e :: rest) k0 = e :: treeEmpty rest k0 := by
        simp [treeEmpty, he]
      rw [hT] at h
      simp only [treeAdj, treeFind_cons] at h ⊢
      by_cases hk : e.1 = k
      · rw [if_pos hk] at h
        rw [if_pos hk]
        exact h
      · rw [if_neg hk] at h
        rw [if_neg hk]
        exact ih h

theorem treeSize_treeEmpty_le (t : Tree) (k : ℕ) :
    treeSize (treeEmpty t k) ≤ treeSize t := by
  induction t with
  | nil => exact le_rfl
  | cons e rest ih =>
    by_cases he : e.1 = k
    · simp only [treeEmpty, List.map_cons, he, if_pos, treeSize, List.sum_cons,
        List.length_nil] at ih ⊢
      omega
    · simp only [treeEmpty, List.map_cons, he, if_false, treeSize, List.sum_cons] at ih ⊢
      omega

/-- Emptying the adjacency of a found node removes at least its entries:
the decreasing measure of the recursion. -/
theorem treeSize_treeEmpty_add_le (t : Tree) (k : ℕ) (nodes : List ℕ)
    (h : treeFind t k = some nodes) :
    treeSize (treeEmpty t k) + nodes.length ≤ treeSize t := by
  induction t with
  | nil => exact absurd h (by simp [treeFind])
  | cons e rest ih =>
    rw [treeFind_cons] at h
    by_cases he : e.1 = k
    · simp only [he, if_pos, Option.some_inj] at h
      subst h
      have := treeSize_treeEmpty_le rest k
      simp only [treeEmpty, List.map_cons, he, if_pos, treeSize, List.sum_cons,
        List.length_nil] at this ⊢
      omega
    · simp only [he, if_false] at h
      have := ih h
      simp only [treeEmpty, List.map_cons, he, if_false, treeSize, List.sum_cons] at this ⊢
      omega

/-- Folding with pointwise-equal step functions gives equal results. -/
theorem foldl_step_congr {α β : Type} (step1 step2 : α → β → α) :
    ∀ (l : List β) (acc : α),
      (∀ p node, node ∈ l → step1 p node = step2 p node) →
      l.foldl step1 acc = l.foldl step2 acc := by
  intro l
  induction l with
  | nil => intro acc _; rfl
  | cons x xs ih =>
    intro acc h
    rw [List.foldl_cons, List.foldl_cons, h acc x (List.mem_cons_self x xs)]
    exact ih _ (fun p node hn => h p node (List.mem_cons_of_mem _ hn))

/-- Fuel independence: any fuel exceeding the total number of adjacency
entries computes the same path, because each recursive call strictly
shrinks that number. -/
theorem longestPathGo_stable : ∀ (n : ℕ) (tree : Tree), treeSize tree ≤ n →
    ∀ (f1 f2 start : ℕ) (last : Option ℕ), treeSize tree < f1 → treeSize tree < f2 →
      longestPathGo f1 start tree last = longestPathGo f2 start tree last := by
  intro n
  induction n with
  | zero =>
    intro tree hsize f1 f2 start last h1 h2
    obtain ⟨a, rfl⟩ : ∃ a, f1 = a + 1 := ⟨f1 - 1, by omega⟩
    obtain ⟨b, rfl⟩ : ∃ b, f2 = b + 1 := ⟨f2 - 1, by omega⟩
    cases hfind : treeFind tree start with
    | none => simp [longestPathGo, hfind]
    | some nodes =>
      cases nodes with
      | nil => simp [longestPathGo, hfind]
      | cons nd rest =>
        have hsz := treeSize_treeEmpty_add_le tree start _ hfind
        simp only [List.length_cons] at hsz
        omega
  | succ n ih =>
    intro tree hsize f1 f2 start last h1 h2
    obtain ⟨a, rfl⟩ : ∃ a, f1 = a + 1 := ⟨f1 - 1, by omega⟩
    obtain ⟨b, rfl⟩ : ∃ b, f2 = b + 1 := ⟨f2 - 1, by omega⟩
    cases hfind : treeFind tree start with
    | none => simp [longestPathGo, hfind]
    | some nodes =>
      cases nodes with
      | nil => simp [longestPathGo, hfind]
      | cons nd rest =>
        have hsz := treeSize_treeEmpty_add_le tree start _ hfind
        simp only [List.length_cons] at hsz
        simp only [longestPathGo, hfind]
        congr 1
        apply foldl_step_congr
        intro p node _
        dsimp only
        have hc : longestPathGo a node (treeEmpty tree start) (some start)
            = longestPathGo b node (treeEmpty tree start) (some start) :=
          ih (treeEmpty tree start) (by omega) a b node (some start)
            (by omega) (by omega)
        rw [hc]

/-- Counterexample to claim C10 as stated: for a start node that is not a
key of the adjacency map the search returns the empty path, which does not
contain the start node. -/
theorem c10_counterexample :
    longestPath 0 ([] : Tree) none = [] ∧ (0 : ℕ) ∉ longestPath 0 ([] : Tree) none := by
  constructor
  · rfl
  · decide

/-- Claim C10 as amended: the recursive search terminates on every finite
adjacency map and start node — any fuel above the total number of adjacency
entries (which strictly decreases along every recursion chain) yields the
same result as the fuel the source wrapper supplies — and the returned path
contains the start node whenever the start node is a key of the map, as it
is for every call the CNA code makes; for an unknown start node the result
is the empty path. -/
theorem c10_amended_termination (tree : Tree) (start : ℕ) (last : Option ℕ)
    (fuel : ℕ) (hfuel : treeSize tree < fuel) :
    longestPathGo fuel start tree last = longestPath start tree last ∧
    ((∃ e ∈ tree, e.1 = start) → start ∈ longestPath start tree last) ∧
    ((∀ e ∈ tree, e.1 ≠ start) → longestPath start tree last = []) := by
  refine ⟨?_, ?_, ?_⟩
  · exact longestPathGo_stable (treeSize tree) tree le_rfl fuel (treeSize tree + 1)
      start last hfuel (Nat.lt_succ_self _)
  · rintro ⟨e, he, hk⟩
    cases hfind : treeFind tree start with
    | none =>
      rw [treeFind_eq_none_iff] at hfind
      exact absurd hk (hfind e he)
    | some nodes =>
      rw [longestPath]
      simp [longestPathGo, hfind]
  · intro hall
    rw [longestPath]
    simp [longestPathGo, (treeFind_eq_none_iff tree start).mpr hall]

/-! ## Claim C1: the l signature component and non-backtracking walks -/

/-- Generic fold invariant. -/
theorem foldl_invariant {α β : Type} (P : α → Prop) (step : α → β → α) :
    ∀ (l : List β) (acc : α), P acc →
      (∀ a b, P a → b ∈ l → P (step a b)) → P (l.foldl step acc) := by
  intro l
  induction l with
  | nil => intro acc h _; exact h
  | cons x xs ih =>
    intro acc h hstep
    exact ih _ (hstep acc x h (List.mem_cons_self x xs))
      (fun a b ha hb => hstep a b ha (List.mem_cons_of_mem _ hb))

/-- Appending an edge adds exactly that adjacency entry. -/
theorem treeAdj_treeAppend (t : Tree) (k v k' d : ℕ)
    (h : d ∈ treeAdj (treeAppend t k v) k') :
    d ∈ treeAdj t k' ∨ (k' = k ∧ d = v) := by
  induction t with
  | nil =>
    simp only [treeAppend, treeAdj, treeFind_cons] at h
    by_cases hk : k = k'
    · rw [if_pos hk] at h
      simp only [Option.getD_some, List.mem_singleton] at h
      exact Or.inr ⟨hk.symm, h⟩
    · rw [if_neg hk] at h
      simp [treeFind] at h
  | cons e rest ih =>
    by_cases he : e.1 = k
    · have hT : treeAppend (e :: rest) k v = (e.1, e.2 ++ [v]) :: rest := by
        simp [treeAppend, he]
      rw [hT] at h
      simp only [treeAdj, treeFind_cons] at h ⊢
      by_cases hk : e.1 = k'
      · rw [if_pos hk] at h
        rw [if_pos hk]
        simp only [Option.getD_some, List.mem_append, List.mem_singleton] at h
        rcases h with h | h
        · exact Or.inl (by simpa using h)
        · exact Or.inr ⟨hk.symm.trans he, h⟩
      · rw [if_neg hk] at h
        rw [if_neg hk]
        exact Or.inl h
    · have hT : treeAppend (e :: rest) k v = e :: treeAppend rest k v := by
        simp [treeAppend, he]
      rw [hT] at h
      simp only [treeAdj, treeFind_cons] at h ⊢
      by_cases hk : e.1 = k'
      · rw [if_pos hk] at h
        rw [if_pos hk]
        exact Or.inl h
      · rw [if_neg hk] at h
        rw [if_neg hk]
        exact ih h

/-- Every adjacency of the tree built from the bond list is a bond (in one
of its two orientations). -/
theorem adjB_of_treeAdj_createTree (bonds : List (ℕ × ℕ)) (k d : ℕ)
    (h : d ∈ treeAdj (createTreeFromEdges bonds) k) : adjB bonds k d = true := by
  rw [createTreeFromEdges] at h
  revert k d
  refine foldl_invariant
    (fun t => ∀ k d, d ∈ treeAdj t k → adjB bonds k d = true) _ bonds [] ?_ ?_
  · intro k d hd
    simp [treeAdj, treeFind] at hd
  · intro t e ht he k d hd
    rcases treeAdj_treeAppend _ _ _ _ _ hd with hd1 | ⟨rfl, rfl⟩
    · rcases treeAdj_treeAppend _ _ _ _ _ hd1 with hd2 | ⟨rfl, rfl⟩
      · exact ht k d hd2
      · simp only [adjB, Bool.or_eq_true, decide_eq_true_eq]
        exact Or.inl (by simpa using he)
    · simp only [adjB, Bool.or_eq_true, decide_eq_true_eq]
      exact Or.inr (by simpa using he)

/-- A key present in the tree is always found. -/
theorem treeFind_isSome_of_mem (t : Tree) (e : ℕ × List ℕ) (he : e ∈ t) :
    ∃ nodes, treeFind t e.1 = some nodes := by
  cases h : treeFind t e.1 with
  | some nodes => exact ⟨nodes, rfl⟩
  | none => exact absurd rfl ((treeFind_eq_none_iff t e.1).mp h e he)

/-- Soundness of the recursive search: every path it returns, read in
reverse, is a walk along bond-graph edges that never immediately returns
to the node it just came from. -/
theorem longestPathGo_walk (bonds : List (ℕ × ℕ)) :
    ∀ (fuel : ℕ) (tree : Tree) (start : ℕ) (last : Option ℕ),
      (∀ k d, d ∈ treeAdj tree k → adjB bonds k d = true) →
      longestPathGo fuel start tree last = [] ∨
        ∃ q, longestPathGo fuel start tree last = q ++ [start] ∧
          nbWalkFrom bonds last start q.reverse = true := by
  intro fuel
  induction fuel with
  | zero => intro tree start last _; exact Or.inl rfl
  | succ f ih =>
    intro tree start last hsub
    cases hfind : treeFind tree start with
    | none => exact Or.inl (by simp [longestPathGo, hfind])
    | some nodes =>
      right
      have hadj : ∀ node ∈ nodes, adjB bonds start node = true := by
        intro node hn
        refine hsub start node ?_
        simp only [treeAdj, hfind, Option.getD_some]
        exact hn
      have hsub' : ∀ k d, d ∈ treeAdj (treeEmpty tree start) k → adjB bonds k d = true :=
        fun k d hd => hsub k d (treeAdj_treeEmpty_subset tree start k d hd)
      refine ⟨nodes.foldl (fun path node =>
          if some node = last then path
          else if path.length
              < (longestPathGo f node (treeEmpty tree start) (some start)).length
            then longestPathGo f node (treeEmpty tree start) (some start)
            else path) [],
        by simp [longestPathGo, hfind], ?_⟩
      refine foldl_invariant (fun p => nbWalkFrom bonds last start p.reverse = true)
        _ nodes [] ?_ ?_
      · rfl
      intro p node hp hnode
      dsimp only
      by_cases hskip : some node = last
      · rw [if_pos hskip]
        exact hp
      · rw [if_neg hskip]
        rcases ih (treeEmpty tree start) node (some start) hsub' with hcand | ⟨q', hq', hwalk⟩
        · rw [hcand]
          simp only [List.length_nil]
          rw [if_neg (Nat.not_lt_zero p.length)]
          exact hp
        · rw [hq']
          by_cases hlen : p.length < (q' ++ [node]).length
          · rw [if_pos hlen, List.reverse_append, List.reverse_cons, List.reverse_nil,
              List.nil_append, List.singleton_append]
            simp [nbWalkFrom, hadj node hnode, hwalk, hskip]
          · rw [if_neg hlen]
            exact hp

/-- A fold of `max` is its seed or an element of the list. -/
theorem foldl_max_attained : ∀ (l : List ℕ) (a : ℕ),
    l.foldl max a = a ∨ l.foldl max a ∈ l := by
  intro l
  induction l with
  | nil => intro a; exact Or.inl rfl
  | cons x xs ih =>
    intro a
    rw [List.foldl_cons]
    rcases ih (max a x) with h | h
    · rw [h]
      rcases max_choice a x with hh | hh
      · exact Or.inl hh
      · exact Or.inr (by rw [hh]; exact List.mem_cons_self x xs)
    · exact Or.inr (List.mem_cons_of_mem _ h)

/-- Counterexample to claim C1 as stated: for the realisable configuration
in which atoms 10 and 11 share the bonded triangle 0, 1, 2, the source
computes l = 3, yet the sub-graph admits the non-backtracking walk
0→1→2→0→1 of 4 edges (cycles make such walks arbitrarily long), so l is
not the maximal such walk length. -/
theorem c1_counterexample :
    cnaL triNNIds (triNNIds 10) 11 = 3 ∧
    isNBWalk (cnaBonds triNNIds (commonNNs triNNIds (triNNIds 10) 11))
      [0, 1, 2, 0, 1] = true ∧
    ¬(4 ≤ cnaL triNNIds (triNNIds 10) 11) := by decide

/-- Claim C1 as amended: l is the edge count of an actual walk of the
shared-neighbour bond sub-graph that never immediately returns to the node
it just came from — a lower bound on such walk lengths rather than their
maximum, which cycles make unbounded — and if the sub-graph has no edges
then l = 0. -/
theorem c1_amended_walk_sound (nnIds : ℕ → List ℕ) (nns : List ℕ) (nn : ℕ) :
    (cnaBonds nnIds (commonNNs nnIds nns nn) = [] → cnaL nnIds nns nn = 0) ∧
    ∃ w, isNBWalk (cnaBonds nnIds (commonNNs nnIds nns nn)) w = true ∧
      w.length = cnaL nnIds nns nn + 1 := by
  constructor
  · intro h
    simp [cnaL, h, createTreeFromEdges]
  · have hdef : cnaL nnIds nns nn
        = ((createTreeFromEdges (cnaBonds nnIds (commonNNs nnIds nns nn))).map
            (fun e => (longestPath e.1
              (createTreeFromEdges (cnaBonds nnIds (commonNNs nnIds nns nn))) none).length
              - 1)).foldl max 0 := rfl
    cases hL : cnaL nnIds nns nn with
    | zero => exact ⟨[0], rfl, by simp⟩
    | succ m =>
      rw [hdef] at hL
      rcases foldl_max_attained _ 0 with h0 | hmem
      · rw [h0] at hL
        exact absurd hL (by simp)
      · rw [hL] at hmem
        rcases List.mem_map.mp hmem with ⟨e, he, hfe⟩
        rcases treeFind_isSome_of_mem _ e he with ⟨nodes, hfind⟩
        rcases longestPathGo_walk (cnaBonds nnIds (commonNNs nnIds nns nn))
            (treeSize (createTreeFromEdges (cnaBonds nnIds (commonNNs nnIds nns nn))) + 1)
            (createTreeFromEdges (cnaBonds nnIds (commonNNs nnIds nns nn))) e.1 none
            (fun k d hd => adjB_of_treeAdj_createTree _ k d hd) with hnil | ⟨q, hq, hwalk⟩
        · simp only [longestPath] at hfe
          rw [hnil] at hfe
          simp at hfe
        · simp only [longestPath] at hfe
          rw [hq] at hfe
          refine ⟨(q ++ [e.1]).reverse, ?_, ?_⟩
          · rw [List.reverse_append, List.reverse_cons, List.reverse_nil,
              List.nil_append, List.singleton_append, isNBWalk]
            exact hwalk
          · rw [List.length_reverse]
            simp only [List.length_append, List.length_singleton] at hfe ⊢
            omega

/-- Witness for C1's amended statement: the edge-free case at the empty
dictionary, and the walk at the concrete triangle configuration. -/
theorem c1_amended_walk_sound_witness :
    cnaL (fun _ => []) [] 0 = 0 ∧
    (∃ w, isNBWalk (cnaBonds triNNIds (commonNNs triNNIds (triNNIds 10) 11)) w = true ∧
      w.length = cnaL triNNIds (triNNIds 10) 11 + 1) :=
  ⟨(c1_amended_walk_sound (fun _ => []) [] 0).1 (by decide),
   (c1_amended_walk_sound triNNIds (triNNIds 10) 11).2⟩

/-- Witness for C10 at the two-node bond tree 0-1, fuel 3. -/
theorem c10_amended_termination_witness :
    longestPathGo 3 0 [(0, [1]), (1, [0])] none = longestPath 0 [(0, [1]), (1, [0])] none ∧
    0 ∈ longestPath 0 [(0, [1]), (1, [0])] none :=
  ⟨(c10_amended_termination [(0, [1]), (1, [0])] 0 none 3 (by decide)).1,
   (c10_amended_termination [(0, [1]), (1, [0])] 0 none 3 (by decide)).2.1
     ⟨(0, [1]), by decide, rfl⟩⟩

end Ipymd
